import Mathlib

/-!
# Verification of the dscribe descriptor computations

This file shallowly embeds the descriptor computations of the dscribe
repository and proves the stated properties about them.

The Coulomb-matrix family is embedded following the reference
implementation `cm_python` in `src/regtests/test_coulombmatrix.py`; the
`ValleOganov` constructor validation is embedded from
`src/dscribe/descriptors/valleoganov.py` (including its local-variable
scoping behaviour); components whose implementation is not part of the
source tree (constructor validation of `CoulombMatrix`, `get_number_of_features`,
the periodic-cell check and the periodic image enumeration) are modelled
from the specification, as indicated in the individual doc comments.
-/

namespace Dscribe

noncomputable section

/-- 3D vectors, indexed by coordinate. -/
abbrev Vec3 := Fin 3 → ℝ

/-- Euclidean distance between two 3D points, as computed by
`np.linalg.norm(pos[:, None, :] - pos[None, :, :], axis=-1)` in `cm_python`. -/
def dist3 (u v : Vec3) : ℝ := Real.sqrt (∑ k, (u k - v k) ^ 2)

/-- An atomic system in the sense of `ase.Atoms`: atomic numbers, Cartesian
positions, a 3×3 lattice cell and a periodicity flag. -/
structure ASystem (n : ℕ) where
  Z : Fin n → ℕ
  pos : Fin n → Vec3
  cell : Fin 3 → Fin 3 → ℝ
  pbc : Bool

/-- One entry of the Coulomb matrix as in the double loop of `cm_python`:
`0.5 * Z[i]**2.4` on the diagonal and `Z[i] * Z[j] / distances[i, j]`
off the diagonal. -/
def cmEntry {n : ℕ} (s : ASystem n) (i j : Fin n) : ℝ :=
  if i = j then 0.5 * (s.Z i : ℝ) ^ (2.4 : ℝ)
  else (s.Z i : ℝ) * (s.Z j : ℝ) / dist3 (s.pos i) (s.pos j)

/-- The n×n Coulomb matrix `cm` built by `cm_python`. -/
def cmMatrix {n : ℕ} (s : ASystem n) : Matrix (Fin n) (Fin n) ℝ :=
  Matrix.of fun i j => cmEntry s i j

/-- `permutation="none", flatten=False` branch of `cm_python`:
`padded = np.zeros((n_atoms_max, n_atoms_max)); padded[:n, :n] = cm`. -/
def cm_none_unflat {n : ℕ} (s : ASystem n) (nmax : ℕ) :
    Matrix (Fin nmax) (Fin nmax) ℝ :=
  Matrix.of fun i j =>
    if h : (i : ℕ) < n ∧ (j : ℕ) < n then cmEntry s ⟨i, h.1⟩ ⟨j, h.2⟩ else 0

/-- Row-major flattening `cm.flatten()` of the n×n Coulomb matrix. -/
def cmFlatList {n : ℕ} (s : ASystem n) : List ℝ :=
  (List.finRange n).flatMap fun i => List.ofFn fun j => cmEntry s i j

/-- `permutation="none", flatten=True` branch of `cm_python`:
`padded = np.zeros((n_atoms_max**2)); padded[:n**2] = cm.flatten()`. -/
def cm_none_flat {n : ℕ} (s : ASystem n) (nmax : ℕ) : List ℝ :=
  (List.range (nmax ^ 2)).map fun k => (cmFlatList s).getD k 0

/-- Modelled from the spec: `CoulombMatrix.get_number_of_features` is not part
of the source tree; the spec ("`number_of_features()`: pure function of
configuration only") together with `test_number_of_features` and
`test_features` fixes it as `n_atoms_max` for the `eigenspectrum`
permutation and `n_atoms_max**2` otherwise. -/
def cmNumberOfFeatures (nmax : ℕ) (permutation : String) : ℕ :=
  if permutation = "eigenspectrum" then nmax else nmax ^ 2

/-- `np.linalg.eigvalsh` on a real symmetric matrix: its eigenvalues with
multiplicity (the roots of the characteristic polynomial) in ascending
order. -/
def eigvalsh {m : ℕ} (A : Matrix (Fin m) (Fin m) ℝ) : List ℝ :=
  A.charpoly.roots.sort (· ≤ ·)

/-- `eigenvalues[np.argsort(np.absolute(eigenvalues))[::-1]]` in `cm_python`:
sort ascending by absolute value, then reverse the order. -/
def sortDescAbs (l : List ℝ) : List ℝ :=
  (List.insertionSort (fun a b => |a| ≤ |b|) l).reverse

instance : IsTotal ℝ (fun a b : ℝ => |a| ≤ |b|) := ⟨fun a b => le_total |a| |b|⟩

instance : IsTrans ℝ (fun a b : ℝ => |a| ≤ |b|) :=
  ⟨fun _ _ _ hab hbc => le_trans hab hbc⟩

/-- `permutation="eigenspectrum"` branch of `cm_python`:
`padded = np.zeros((n_atoms_max)); padded[:n] = eigenvalues` where the
eigenvalues have been sorted by descending absolute value. -/
def cm_eigenspectrum {n : ℕ} (s : ASystem n) (nmax : ℕ) : List ℝ :=
  (List.range nmax).map fun k => (sortDescAbs (eigvalsh (cmMatrix s))).getD k 0

/-- The water-like structure `H2O` of `src/regtests/soap.py`: symbols
`["H", "O", "H"]`, both O–H bonds of length 0.95 and an H–O–H angle of
180° − 76° = 104°. -/
def waterSystem : ASystem 3 where
  Z := ![1, 8, 1]
  pos := ![![0, 0, 0], ![0.95, 0, 0],
    ![0.95 * (1 + Real.cos (76 / 180 * Real.pi)),
      0.95 * Real.sin (76 / 180 * Real.pi), 0]]
  cell := ![![1, 0, 0], ![0, 1, 0], ![0, 0, 1]]
  pbc := false

/-- Translation of every atom position by a vector t. -/
def translate {n : ℕ} (s : ASystem n) (t : Vec3) : ASystem n :=
  { s with pos := fun i => s.pos i + t }

/-- Application of a linear map (given by a 3×3 matrix) to every atom
position. -/
def rotate {n : ℕ} (s : ASystem n) (R : Matrix (Fin 3) (Fin 3) ℝ) : ASystem n :=
  { s with pos := fun i => R.mulVec (s.pos i) }

/-- Reordering of the atoms by a permutation σ (atom i of the new system is
atom σ i of the old one). -/
def permuteAtoms {n : ℕ} (s : ASystem n) (σ : Equiv.Perm (Fin n)) : ASystem n :=
  { s with Z := fun i => s.Z (σ i), pos := fun i => s.pos (σ i) }

/-- Valid permutation options of the Coulomb-matrix descriptor. -/
def cmValidPermutations : List String := ["none", "eigenspectrum", "random"]

/-- Decision of whether an `Except` result is a success. -/
def exceptOk {ε α : Type*} : Except ε α → Bool
  | .ok _ => true
  | .error _ => false

/-- Modelled from the spec: the `CoulombMatrix` constructor is not part of
the source tree; per the spec's error taxonomy it raises a configuration
error eagerly at construction for an unknown permutation string or a
negative `n_atoms_max`, and otherwise stores the configuration. -/
def coulombMatrixInit (n_atoms_max : ℤ) (permutation : String) :
    Except String (ℤ × String) :=
  if permutation ∉ cmValidPermutations then
    .error "unknown permutation option"
  else if n_atoms_max < 0 then
    .error "negative n_atoms_max"
  else
    .ok (n_atoms_max, permutation)

/-- Modelled from the spec: the size check of `CoulombMatrix.create` is not
part of the source tree; per the spec it fails with a structure error at
computation time when the structure has more atoms than `n_atoms_max`. -/
def cmCreateSizeCheck (nmax n : ℕ) : Except String Unit :=
  if nmax < n then .error "system has more atoms than n_atoms_max" else .ok ()

/-- 3×3 determinant, the cell volume up to sign. -/
def det3 (c : Fin 3 → Fin 3 → ℝ) : ℝ :=
  c 0 0 * (c 1 1 * c 2 2 - c 1 2 * c 2 1)
  - c 0 1 * (c 1 0 * c 2 2 - c 1 2 * c 2 0)
  + c 0 2 * (c 1 0 * c 2 1 - c 1 1 * c 2 0)

open Classical in
/-- Modelled from the spec: the structure validation of a periodic
descriptor's `create` is not part of the source tree; per the spec it
fails with an invalid-structure error when `periodic=True` and the
lattice is degenerate (zero volume), while a non-periodic configuration
accepts the same structure. -/
def soapCreateCellCheck (periodic : Bool) {n : ℕ} (s : ASystem n) :
    Except String Unit :=
  if periodic = true ∧ det3 s.cell = 0 then
    .error "invalid structure: degenerate lattice"
  else
    .ok ()

/-! ## ValleOganov constructor validation (src/dscribe/descriptors/valleoganov.py) -/

/-- Python exceptions that the `ValleOganov.__init__` validation can raise:
the explicit `ValueError`s, and the `UnboundLocalError` (a `NameError`)
that referencing an unassigned local variable raises. -/
inductive PyError where
  | valueError (msg : String)
  | unboundLocalError (name : String)
deriving DecidableEq

/-- `valid_keys = set(("sigma", "n", "r_cutoff"))`. -/
def voValidKeys : List String := ["sigma", "n", "r_cutoff"]

/-- Embedding of one `k2`/`k3` check block of `ValleOganov.__init__`.

The first loop runs over the dictionary's keys; its body assigns the
local variable `valid_keys` and then raises `ValueError` for a key
outside it.  The second loop, `for key in valid_keys`, raises
`ValueError` for a required key missing from the dictionary — but it can
only run if `valid_keys` has been assigned, i.e. if a previous check
block already iterated over a non-empty dictionary; otherwise Python
raises `UnboundLocalError`.  The boolean argument and the boolean result
track whether `valid_keys` is assigned. -/
def voCheckSetup (validKeysBound : Bool) (k : Option (List String)) :
    Bool × Option PyError :=
  match k with
  | none => (validKeysBound, none)
  | some keys =>
    let bound := validKeysBound || !keys.isEmpty
    match keys.find? (fun key => !voValidKeys.contains key) with
    | some _ =>
      (bound, some (.valueError "The given setup contains an invalid key"))
    | none =>
      if !bound then
        (bound, some (.unboundLocalError "valid_keys"))
      else
        match voValidKeys.find? (fun key => !keys.contains key) with
        | some _ => (bound, some (.valueError "Missing value"))
        | none => (bound, none)

/-- Embedding of the validation part of `ValleOganov.__init__`: the `k2`
dictionary is checked first, then the `k3` dictionary (with `valid_keys`
still assigned if the `k2` check bound it); `none` models a `None`
argument and the result is the first exception raised, if any. -/
def valleOganovInit (k2 k3 : Option (List String)) : Option PyError :=
  match voCheckSetup false k2 with
  | (_, some e) => some e
  | (bound, none) => (voCheckSetup bound k3).2

/-! ## Periodic images and supercells -/

/-- A species-tagged point of a periodic structure: atomic number and
Cartesian position. -/
abbrev SAtom := ℕ × Vec3

/-- Modelled from the spec: the Geometry Enumerator of a periodic
descriptor is not part of the source tree; per the spec it must see, for
each atom of the structure, the periodic images `position + Σ vᵢ·bᵢ`
over all integer combinations of the lattice vectors (the enumeration is
cut off at a radius but "must replicate the structure ... to guarantee
no contributing neighbor within cutoff is missed", so the physical input
of the descriptor is this image set). -/
def imageSet (b : Fin 3 → Vec3) (A : Set SAtom) : Set SAtom :=
  { q | ∃ a ∈ A, ∃ v : Fin 3 → ℤ, q = (a.1, a.2 + ∑ i, (v i : ℝ) • b i) }

/-- The lattice basis of the m-fold supercell along the first lattice
vector (`molecule * (m, 1, 1)` in ASE). -/
def superCellBasis (b : Fin 3 → Vec3) (m : ℕ) : Fin 3 → Vec3 :=
  Function.update b 0 ((m : ℝ) • b 0)

/-- The atoms of the m-fold supercell along the first lattice vector:
every original atom repeated at the offsets `r·b₀` for `0 ≤ r < m`. -/
def superCellAtoms (b : Fin 3 → Vec3) (m : ℕ) (A : Set SAtom) : Set SAtom :=
  { q | ∃ a ∈ A, ∃ r : ℕ, r < m ∧ q = (a.1, a.2 + (r : ℝ) • b 0) }

/-! ## Helper lemmas about the padded outputs -/

/-- Reading a list back off by position, with default past the end. -/
theorem map_range_getD {α : Type*} (l : List α) (d : α) :
    (List.range l.length).map (fun k => l.getD k d) = l := by
  apply List.ext_getElem
  · simp
  · intro i h1 h2
    simp only [List.getElem_map, List.getElem_range]
    exact List.getD_eq_getElem l d h2

/-- The row-major flattening of the n×n Coulomb matrix has n² entries. -/
theorem cmFlatList_length {n : ℕ} (s : ASystem n) :
    (cmFlatList s).length = n ^ 2 := by
  simp [cmFlatList, List.length_flatMap, Function.comp_def, sq]

/-- The first n² entries of the flattened padded output are the flattened
Coulomb matrix. -/
theorem cm_none_flat_take {n nmax : ℕ} (s : ASystem n) (h : n ≤ nmax) :
    (cm_none_flat s nmax).take (n ^ 2) = cmFlatList s := by
  have hle : n ^ 2 ≤ nmax ^ 2 := Nat.pow_le_pow_left h 2
  rw [cm_none_flat, ← List.map_take, List.take_range, Nat.min_eq_left hle,
    ← cmFlatList_length s, map_range_getD]

/-- Everything at or beyond position n² in the flattened padded output is 0. -/
theorem cm_none_flat_pad {n nmax : ℕ} (s : ASystem n) (k : ℕ) (hk : n ^ 2 ≤ k) :
    (cm_none_flat s nmax).getD k 0 = 0 := by
  by_cases hlt : k < nmax ^ 2
  · have hlen : (cm_none_flat s nmax).length = nmax ^ 2 := by
      simp [cm_none_flat]
    rw [List.getD_eq_getElem _ _ (by rw [hlen]; exact hlt)]
    simp only [cm_none_flat, List.getElem_map, List.getElem_range]
    exact List.getD_eq_default _ _ (by rw [cmFlatList_length]; exact hk)
  · exact List.getD_eq_default _ _ (by simp [cm_none_flat]; omega)

/-! ## The Coulomb matrix is symmetric and its characteristic polynomial -/

/-- The Euclidean distance is symmetric. -/
theorem dist3_comm (u v : Vec3) : dist3 u v = dist3 v u := by
  unfold dist3
  congr 1
  exact Finset.sum_congr rfl fun k _ => by ring

/-- The Coulomb matrix is symmetric in its two indices. -/
theorem cmEntry_symm {n : ℕ} (s : ASystem n) (i j : Fin n) :
    cmEntry s i j = cmEntry s j i := by
  unfold cmEntry
  by_cases h : i = j
  · subst h; rfl
  · rw [if_neg h, if_neg (Ne.symm h), mul_comm, dist3_comm]

/-- The Coulomb matrix is a real symmetric, hence Hermitian, matrix. -/
theorem cmMatrix_isHermitian {n : ℕ} (s : ASystem n) :
    (cmMatrix s).IsHermitian := by
  ext i j
  simp only [Matrix.conjTranspose_apply, star_trivial, cmMatrix, Matrix.of_apply]
  exact cmEntry_symm s j i

/-- Evaluating the characteristic polynomial is taking the determinant of
`x·I - A`. -/
theorem charpoly_eval {m : ℕ} (A : Matrix (Fin m) (Fin m) ℝ) (x : ℝ) :
    A.charpoly.eval x = (x • (1 : Matrix (Fin m) (Fin m) ℝ) - A).det := by
  show Polynomial.evalRingHom x A.charpoly = _
  rw [Matrix.charpoly, RingHom.map_det]
  congr 1
  ext i j
  by_cases h : i = j
  · subst h
    simp [Matrix.charmatrix_apply_eq]
  · simp [Matrix.charmatrix_apply_ne _ _ _ h, Matrix.one_apply_ne h]

/-- For a real symmetric matrix, `det (x·I - A)` factors through the
eigenvalues of the spectral theorem. -/
theorem det_smul_one_sub_of_isHermitian {m : ℕ} {A : Matrix (Fin m) (Fin m) ℝ}
    (hA : A.IsHermitian) (x : ℝ) :
    (x • (1 : Matrix (Fin m) (Fin m) ℝ) - A).det =
      ∏ i, (x - hA.eigenvalues i) := by
  set U : Matrix (Fin m) (Fin m) ℝ :=
    (hA.eigenvectorUnitary : Matrix (Fin m) (Fin m) ℝ) with hUdef
  have hU1 : U * star U = 1 := Matrix.mem_unitaryGroup_iff.mp hA.eigenvectorUnitary.2
  have hsmul : x • (1 : Matrix (Fin m) (Fin m) ℝ) = U * (x • 1) * star U := by
    rw [Matrix.mul_smul, Matrix.smul_mul, mul_one, hU1]
  have hfact : x • (1 : Matrix (Fin m) (Fin m) ℝ) - A =
      U * (x • 1 - Matrix.diagonal (RCLike.ofReal ∘ hA.eigenvalues)) * star U := by
    rw [Matrix.mul_sub, Matrix.sub_mul, ← hsmul, ← hA.spectral_theorem]
  have hdiag : x • (1 : Matrix (Fin m) (Fin m) ℝ) -
      Matrix.diagonal (RCLike.ofReal ∘ hA.eigenvalues) =
      Matrix.diagonal (fun i => x - hA.eigenvalues i) := by
    ext i j
    by_cases h : i = j
    · subst h
      simp [Matrix.one_apply_eq, RCLike.ofReal_real_eq_id]
    · simp [Matrix.one_apply_ne h, Matrix.diagonal_apply_ne _ h]
  have hdetU : U.det * (star U).det = 1 := by
    rw [← Matrix.det_mul, hU1, Matrix.det_one]
  rw [hfact, Matrix.det_mul, Matrix.det_mul, hdiag]
  calc U.det * (Matrix.diagonal (fun i => x - hA.eigenvalues i)).det *
        (star U).det
      = (Matrix.diagonal (fun i => x - hA.eigenvalues i)).det *
        (U.det * (star U).det) := by ring
    _ = (Matrix.diagonal (fun i => x - hA.eigenvalues i)).det := by
        rw [hdetU, mul_one]
    _ = ∏ i, (x - hA.eigenvalues i) := by rw [Matrix.det_diagonal]

/-- The characteristic polynomial of a real symmetric matrix splits into
linear factors at the eigenvalues of the spectral theorem. -/
theorem charpoly_eq_prod_of_isHermitian {m : ℕ} {A : Matrix (Fin m) (Fin m) ℝ}
    (hA : A.IsHermitian) :
    A.charpoly =
      ((Finset.univ.val.map hA.eigenvalues).map
        (fun a => Polynomial.X - Polynomial.C a)).prod := by
  apply Polynomial.funext
  intro x
  rw [charpoly_eval, det_smul_one_sub_of_isHermitian hA x,
    Polynomial.eval_multiset_prod, Multiset.map_map, Multiset.map_map]
  rw [Finset.prod_eq_multiset_prod]
  congr 1
  apply Multiset.map_congr rfl
  intro a _
  simp

/-- The roots (with multiplicity) of the characteristic polynomial of a
real symmetric matrix are exactly its eigenvalues. -/
theorem charpoly_roots_of_isHermitian {m : ℕ} {A : Matrix (Fin m) (Fin m) ℝ}
    (hA : A.IsHermitian) :
    A.charpoly.roots = Finset.univ.val.map hA.eigenvalues := by
  rw [charpoly_eq_prod_of_isHermitian hA,
    Polynomial.roots_multiset_prod_X_sub_C]

/-- `eigvalsh` returns one value per matrix row for a real symmetric
matrix. -/
theorem eigvalsh_length_of_isHermitian {m : ℕ} {A : Matrix (Fin m) (Fin m) ℝ}
    (hA : A.IsHermitian) : (eigvalsh A).length = m := by
  rw [eigvalsh, Multiset.length_sort, charpoly_roots_of_isHermitian hA,
    Multiset.card_map]
  simp

/-- As a multiset, `eigvalsh` is the eigenvalue multiset. -/
theorem eigvalsh_coe {m : ℕ} (A : Matrix (Fin m) (Fin m) ℝ) :
    (eigvalsh A : Multiset ℝ) = A.charpoly.roots :=
  Multiset.sort_eq _ _

/-- Sorting by descending absolute value is a permutation. -/
theorem sortDescAbs_perm (l : List ℝ) : List.Perm (sortDescAbs l) l :=
  (List.reverse_perm _).trans (List.perm_insertionSort _ l)

theorem sortDescAbs_length (l : List ℝ) : (sortDescAbs l).length = l.length :=
  (sortDescAbs_perm l).length_eq

/-- The result of `sortDescAbs` is sorted by descending absolute value. -/
theorem sortDescAbs_sorted (l : List ℝ) :
    List.Sorted (fun a b : ℝ => |b| ≤ |a|) (sortDescAbs l) := by
  rw [sortDescAbs, List.Sorted, List.pairwise_reverse]
  exact List.sorted_insertionSort _ l

/-- Writing `np.zeros(nmax)` followed by `padded[:len(l)] = l` as an
append of the padding zeros. -/
theorem pad_list_eq {nmax : ℕ} (l : List ℝ) (h : l.length ≤ nmax) :
    (List.range nmax).map (fun k => l.getD k 0) =
      l ++ List.replicate (nmax - l.length) 0 := by
  apply List.ext_getElem
  · simp
    omega
  · intro k h1 h2
    simp only [List.getElem_map, List.getElem_range]
    by_cases hk : k < l.length
    · rw [List.getElem_append_left hk, List.getD_eq_getElem l 0 hk]
    · rw [List.getElem_append_right (Nat.le_of_not_lt hk),
        List.getElem_replicate, List.getD_eq_default _ _ (Nat.le_of_not_lt hk)]

/-- The eigenspectrum output is the descending-|·|-sorted eigenvalue list
followed by the padding zeros. -/
theorem cm_eigenspectrum_eq {n nmax : ℕ} (s : ASystem n) (h : n ≤ nmax) :
    cm_eigenspectrum s nmax =
      sortDescAbs (eigvalsh (cmMatrix s)) ++ List.replicate (nmax - n) 0 := by
  have hlen : (sortDescAbs (eigvalsh (cmMatrix s))).length = n := by
    rw [sortDescAbs_length, eigvalsh_length_of_isHermitian (cmMatrix_isHermitian s)]
  rw [cm_eigenspectrum, pad_list_eq _ (by rw [hlen]; exact h), hlen]

/-! ## Invariance lemmas -/

/-- Translating both points leaves the distance unchanged. -/
theorem dist3_translate (u v t : Vec3) : dist3 (u + t) (v + t) = dist3 u v := by
  unfold dist3
  congr 1
  exact Finset.sum_congr rfl fun k _ => by simp

/-- An orthogonal matrix preserves sums of squared coordinates. -/
theorem sq_sum_mulVec {R : Matrix (Fin 3) (Fin 3) ℝ}
    (hR : R ∈ Matrix.orthogonalGroup (Fin 3) ℝ) (w : Vec3) :
    ∑ k, R.mulVec w k ^ 2 = ∑ k, w k ^ 2 := by
  have hst : star R * R = 1 := (Matrix.mem_orthogonalGroup_iff' (Fin 3) ℝ).mp hR
  have ht : R.transpose * R = 1 := by
    rw [← hst]
    congr 1
  have key : Matrix.dotProduct (R.mulVec w) (R.mulVec w) =
      Matrix.dotProduct w w := by
    rw [Matrix.dotProduct_mulVec, ← Matrix.mulVec_transpose,
      Matrix.mulVec_mulVec, ht, Matrix.one_mulVec]
  simpa [Matrix.dotProduct, pow_two] using key

/-- An orthogonal matrix preserves distances. -/
theorem dist3_mulVec {R : Matrix (Fin 3) (Fin 3) ℝ}
    (hR : R ∈ Matrix.orthogonalGroup (Fin 3) ℝ) (u v : Vec3) :
    dist3 (R.mulVec u) (R.mulVec v) = dist3 u v := by
  unfold dist3
  congr 1
  have hsub : ∀ k, R.mulVec u k - R.mulVec v k = R.mulVec (u - v) k := by
    intro k
    rw [Matrix.mulVec_sub]
    simp
  calc ∑ k, (R.mulVec u k - R.mulVec v k) ^ 2
      = ∑ k, R.mulVec (u - v) k ^ 2 :=
        Finset.sum_congr rfl fun k _ => by rw [hsub k]
    _ = ∑ k, (u - v) k ^ 2 := sq_sum_mulVec hR (u - v)
    _ = ∑ k, (u k - v k) ^ 2 :=
        Finset.sum_congr rfl fun k _ => by simp

/-- The Coulomb-matrix entries are unchanged by a global translation. -/
theorem cmEntry_translate {n : ℕ} (s : ASystem n) (t : Vec3) :
    cmEntry (translate s t) = cmEntry s := by
  funext i j
  simp only [cmEntry, translate, dist3_translate]

/-- The Coulomb-matrix entries are unchanged by a global rotation. -/
theorem cmEntry_rotate {n : ℕ} (s : ASystem n) {R : Matrix (Fin 3) (Fin 3) ℝ}
    (hR : R ∈ Matrix.orthogonalGroup (Fin 3) ℝ) :
    cmEntry (rotate s R) = cmEntry s := by
  funext i j
  simp only [cmEntry, rotate, dist3_mulVec hR]

/-- Permuting the atoms permutes the rows and columns of the Coulomb
matrix simultaneously. -/
theorem cmMatrix_permute {n : ℕ} (s : ASystem n) (σ : Equiv.Perm (Fin n)) :
    cmMatrix (permuteAtoms s σ) = (cmMatrix s).submatrix σ σ := by
  ext i j
  simp only [cmMatrix, Matrix.of_apply, Matrix.submatrix_apply, cmEntry,
    permuteAtoms, EmbeddingLike.apply_eq_iff_eq]

/-- A simultaneous row/column permutation does not change the
characteristic polynomial, hence not the eigenvalue list. -/
theorem eigvalsh_permute {n : ℕ} (s : ASystem n) (σ : Equiv.Perm (Fin n)) :
    eigvalsh (cmMatrix (permuteAtoms s σ)) = eigvalsh (cmMatrix s) := by
  have hsub : cmMatrix (permuteAtoms s σ) =
      Matrix.reindex σ.symm σ.symm (cmMatrix s) := by
    rw [cmMatrix_permute, Matrix.reindex_apply, Equiv.symm_symm]
  rw [eigvalsh, eigvalsh, hsub, Matrix.charpoly_reindex]

/-- The Coulomb-matrix entries read nothing but atomic numbers and
positions. -/
theorem cmEntry_eq_of {n : ℕ} {s s' : ASystem n} (hZ : s.Z = s'.Z)
    (hpos : s.pos = s'.pos) : cmEntry s = cmEntry s' := by
  funext i j
  simp only [cmEntry, dist3, hZ, hpos]

/-- An integer combination of the supercell basis, written in the
original basis. -/
theorem sum_superCellBasis (b : Fin 3 → Vec3) (m : ℕ) (v : Fin 3 → ℤ) :
    ∑ i, (v i : ℝ) • superCellBasis b m i =
      ((v 0 : ℝ) * (m : ℝ)) • b 0 + (v 1 : ℝ) • b 1 + (v 2 : ℝ) • b 2 := by
  rw [Fin.sum_univ_three]
  unfold superCellBasis
  rw [Function.update_same, Function.update_noteq (by decide),
    Function.update_noteq (by decide), smul_smul]

/-- The periodic image set of the m-fold supercell (m ≥ 1) is the
periodic image set of the original cell. -/
theorem imageSet_superCell (b : Fin 3 → Vec3) (A : Set SAtom) (m : ℕ)
    (hm : 1 ≤ m) :
    imageSet (superCellBasis b m) (superCellAtoms b m A) = imageSet b A := by
  have hm' : (0 : ℤ) < (m : ℤ) := by exact_mod_cast hm
  ext q
  constructor
  · rintro ⟨a', ⟨a, haA, r, hr, rfl⟩, v, rfl⟩
    refine ⟨a, haA, ![(r : ℤ) + v 0 * (m : ℤ), v 1, v 2], ?_⟩
    simp only [Prod.mk.injEq, true_and]
    rw [sum_superCellBasis, Fin.sum_univ_three]
    simp only [Matrix.cons_val_zero, Matrix.cons_val_one, Matrix.head_cons,
      Matrix.cons_val_two, Matrix.tail_cons]
    push_cast
    module
  · rintro ⟨a, haA, v, rfl⟩
    have h1 : 0 ≤ v 0 % (m : ℤ) := Int.emod_nonneg _ (ne_of_gt hm')
    have h2 : v 0 % (m : ℤ) < (m : ℤ) := Int.emod_lt_of_pos _ hm'
    refine ⟨(a.1, a.2 + (((v 0 % (m : ℤ)).toNat : ℕ) : ℝ) • b 0),
      ⟨a, haA, (v 0 % (m : ℤ)).toNat, by omega, rfl⟩,
      ![v 0 / (m : ℤ), v 1, v 2], ?_⟩
    simp only [Prod.mk.injEq, true_and]
    rw [sum_superCellBasis, Fin.sum_univ_three]
    simp only [Matrix.cons_val_zero, Matrix.cons_val_one, Matrix.head_cons,
      Matrix.cons_val_two, Matrix.tail_cons]
    have hid : ((m : ℤ)) * (v 0 / (m : ℤ)) + v 0 % (m : ℤ) = v 0 :=
      Int.ediv_add_emod _ _
    have hco : (v 0 : ℝ) =
        (((v 0 % (m : ℤ)).toNat : ℕ) : ℝ) + ((v 0 / (m : ℤ) : ℤ) : ℝ) * (m : ℝ) := by
      have h4 : v 0 = ((v 0 % (m : ℤ)).toNat : ℤ) + v 0 / (m : ℤ) * (m : ℤ) := by
        rw [Int.toNat_of_nonneg h1, Int.emod_def]
        ring
      have h5 := congrArg (fun z : ℤ => (z : ℝ)) h4
      push_cast at h5
      exact h5
    rw [hco]
    module

/-! ## Claim theorems -/

/-- C1: with `permutation="none"` the padded matrix for an n-atom structure
(n ≤ n_atoms_max) has off-diagonal entries `Z_i * Z_j / distance_ij`,
diagonal entries `0.5 * Z_i^2.4`, and is zero outside the top-left n×n
block. Instantiated at the 3-atom water-like structure with
`n_atoms_max = 5` in the accompanying witness. -/
theorem coulomb_matrix_none_entries {n nmax : ℕ} (s : ASystem n) (h : n ≤ nmax) :
    (∀ (i j : ℕ) (hi : i < n) (hj : j < n),
      cm_none_unflat s nmax ⟨i, lt_of_lt_of_le hi h⟩ ⟨j, lt_of_lt_of_le hj h⟩ =
        if i = j then 0.5 * (s.Z ⟨i, hi⟩ : ℝ) ^ (2.4 : ℝ)
        else (s.Z ⟨i, hi⟩ : ℝ) * (s.Z ⟨j, hj⟩ : ℝ) /
          Real.sqrt (∑ k, (s.pos ⟨i, hi⟩ k - s.pos ⟨j, hj⟩ k) ^ 2))
    ∧ (∀ i j : Fin nmax, n ≤ (i : ℕ) ∨ n ≤ (j : ℕ) →
      cm_none_unflat s nmax i j = 0) := by
  constructor
  · intro i j hi hj
    simp only [cm_none_unflat, Matrix.of_apply]
    rw [dif_pos ⟨hi, hj⟩]
    simp only [cmEntry, dist3, Fin.mk.injEq]
  · intro i j hij
    simp only [cm_none_unflat, Matrix.of_apply]
    rw [dif_neg]
    omega

/-- Witness for C1 at the water-like structure with `n_atoms_max = 5`:
sample entries of the top-left 3×3 block match the formula and sample
entries of the padded region are 0. -/
theorem coulomb_matrix_none_entries_witness :
    cm_none_unflat waterSystem 5 ⟨0, by omega⟩ ⟨1, by omega⟩ =
      (waterSystem.Z ⟨0, by omega⟩ : ℝ) * (waterSystem.Z ⟨1, by omega⟩ : ℝ) /
        Real.sqrt (∑ k, (waterSystem.pos ⟨0, by omega⟩ k -
          waterSystem.pos ⟨1, by omega⟩ k) ^ 2) ∧
    cm_none_unflat waterSystem 5 ⟨1, by omega⟩ ⟨1, by omega⟩ =
      0.5 * (waterSystem.Z ⟨1, by omega⟩ : ℝ) ^ (2.4 : ℝ) ∧
    cm_none_unflat waterSystem 5 ⟨3, by omega⟩ ⟨4, by omega⟩ = 0 ∧
    cm_none_unflat waterSystem 5 ⟨4, by omega⟩ ⟨1, by omega⟩ = 0 := by
  have h := coulomb_matrix_none_entries waterSystem (by omega : 3 ≤ 5)
  refine ⟨?_, ?_, ?_, ?_⟩
  · simpa using h.1 0 1 (by omega) (by omega)
  · simpa using h.1 1 1 (by omega) (by omega)
  · exact h.2 ⟨3, by omega⟩ ⟨4, by omega⟩ (Or.inl (by decide))
  · exact h.2 ⟨4, by omega⟩ ⟨1, by omega⟩ (Or.inl (by decide))

/-- C3: for an n-atom structure (n ≤ n_atoms_max), the first n² entries of
the flattened output are the row-major traversal of the top-left n×n
block of the unflattened output, and all remaining entries of either
output are exactly zero. -/
theorem flatten_unflatten_agree {n nmax : ℕ} (s : ASystem n) (h : n ≤ nmax) :
    (cm_none_flat s nmax).take (n ^ 2) =
      ((List.finRange n).flatMap fun i => List.ofFn fun j : Fin n =>
        cm_none_unflat s nmax (Fin.castLE h i) (Fin.castLE h j))
    ∧ (∀ k : ℕ, n ^ 2 ≤ k → (cm_none_flat s nmax).getD k 0 = 0)
    ∧ (∀ i j : Fin nmax, n ≤ (i : ℕ) ∨ n ≤ (j : ℕ) →
      cm_none_unflat s nmax i j = 0) := by
  refine ⟨?_, fun k hk => cm_none_flat_pad s k hk, ?_⟩
  · rw [cm_none_flat_take s h, cmFlatList]
    congr 1
    funext i
    congr 1
    funext j
    simp only [cm_none_unflat, Matrix.of_apply, Fin.coe_castLE]
    rw [dif_pos ⟨i.isLt, j.isLt⟩]
  · intro i j hij
    simp only [cm_none_unflat, Matrix.of_apply]
    rw [dif_neg]
    omega

/-- Witness for C3 at the water-like structure with `n_atoms_max = 5`. -/
theorem flatten_unflatten_agree_witness :
    ((cm_none_flat waterSystem 5).take (3 ^ 2) =
      ((List.finRange 3).flatMap fun i => List.ofFn fun j : Fin 3 =>
        cm_none_unflat waterSystem 5 (Fin.castLE (by omega) i)
          (Fin.castLE (by omega) j)))
    ∧ (cm_none_flat waterSystem 5).getD 9 0 = 0
    ∧ (cm_none_flat waterSystem 5).getD 24 0 = 0 := by
  have h := flatten_unflatten_agree waterSystem (by omega : 3 ≤ 5)
  exact ⟨h.1, h.2.1 9 (by omega), h.2.1 24 (by omega)⟩

/-- C2: `number_of_features` is a function of the configuration only
(`n_atoms_max` and the permutation scheme), and for every input structure
— whatever its atom count n — the produced output has exactly that many
entries: `n_atoms_max²` for the flattened `"none"` (and `"random"`)
output and `n_atoms_max` for the `"eigenspectrum"` output. -/
theorem number_of_features_matches_output (nmax : ℕ) :
    (∀ (n : ℕ) (s : ASystem n),
      (cm_none_flat s nmax).length = cmNumberOfFeatures nmax "none")
    ∧ (∀ (n : ℕ) (s : ASystem n),
      (cm_eigenspectrum s nmax).length = cmNumberOfFeatures nmax "eigenspectrum")
    ∧ cmNumberOfFeatures nmax "none" = nmax ^ 2
    ∧ cmNumberOfFeatures nmax "random" = nmax ^ 2
    ∧ cmNumberOfFeatures nmax "eigenspectrum" = nmax := by
  refine ⟨fun n s => ?_, fun n s => ?_, ?_, ?_, ?_⟩ <;>
    simp [cm_none_flat, cm_eigenspectrum, cmNumberOfFeatures]

/-- C4: with `permutation="eigenspectrum"` the output of an n-atom
structure (n ≤ n_atoms_max) has exactly `n_atoms_max` entries; its first
n entries are, with multiplicity, the eigenvalues of the symmetric
Coulomb matrix; the whole output is sorted by descending absolute
value; the remaining entries are the padding zeros; and
`number_of_features` is `n_atoms_max`, not `n_atoms_max²`. -/
theorem eigenspectrum_output {n nmax : ℕ} (s : ASystem n) (h : n ≤ nmax) :
    (cm_eigenspectrum s nmax).length = nmax
    ∧ ((cm_eigenspectrum s nmax).take n : Multiset ℝ) =
        Finset.univ.val.map (cmMatrix_isHermitian s).eigenvalues
    ∧ List.Sorted (fun a b : ℝ => |b| ≤ |a|) (cm_eigenspectrum s nmax)
    ∧ (cm_eigenspectrum s nmax).drop n = List.replicate (nmax - n) 0
    ∧ cmNumberOfFeatures nmax "eigenspectrum" = nmax := by
  have hlen : (sortDescAbs (eigvalsh (cmMatrix s))).length = n := by
    rw [sortDescAbs_length,
      eigvalsh_length_of_isHermitian (cmMatrix_isHermitian s)]
  have heq := cm_eigenspectrum_eq s h
  refine ⟨?_, ?_, ?_, ?_, ?_⟩
  · rw [heq, List.length_append, hlen, List.length_replicate]
    omega
  · rw [heq, List.take_left' hlen]
    calc (↑(sortDescAbs (eigvalsh (cmMatrix s))) : Multiset ℝ)
        = ↑(eigvalsh (cmMatrix s)) :=
          Multiset.coe_eq_coe.mpr (sortDescAbs_perm _)
      _ = (cmMatrix s).charpoly.roots := eigvalsh_coe _
      _ = Finset.univ.val.map (cmMatrix_isHermitian s).eigenvalues :=
          charpoly_roots_of_isHermitian _
  · rw [heq, List.Sorted, List.pairwise_append]
    refine ⟨sortDescAbs_sorted _, ?_, ?_⟩
    · exact List.pairwise_replicate.mpr (Or.inr (by simp))
    · intro a _ b hb
      rw [List.eq_of_mem_replicate hb]
      simp
  · rw [heq, List.drop_left' hlen]
  · simp [cmNumberOfFeatures]

/-- Witness for C4 at the water-like structure with `n_atoms_max = 5`. -/
theorem eigenspectrum_output_witness :
    (cm_eigenspectrum waterSystem 5).length = 5
    ∧ (cm_eigenspectrum waterSystem 5).drop 3 = List.replicate 2 0
    ∧ cmNumberOfFeatures 5 "eigenspectrum" = 5 := by
  have h := eigenspectrum_output waterSystem (by omega : 3 ≤ 5)
  exact ⟨h.1, h.2.2.2.1, h.2.2.2.2⟩

/-- Witness for C2 at `n_atoms_max = 5` and the water-like structure. -/
theorem number_of_features_matches_output_witness :
    (cm_none_flat waterSystem 5).length = cmNumberOfFeatures 5 "none"
    ∧ (cm_eigenspectrum waterSystem 5).length =
      cmNumberOfFeatures 5 "eigenspectrum"
    ∧ cmNumberOfFeatures 5 "none" = 25
    ∧ cmNumberOfFeatures 5 "eigenspectrum" = 5 := by
  have h := number_of_features_matches_output 5
  exact ⟨h.1 3 waterSystem, h.2.1 3 waterSystem, h.2.2.1, h.2.2.2.2⟩

/-- C10: the Coulomb-matrix output is a function of atomic numbers and
Cartesian positions only — two systems differing only in their lattice
cell and periodicity flag get identical outputs in every permutation
mode, and every off-diagonal entry is computed from the direct Cartesian
distance of the stored positions. -/
theorem cm_ignores_periodicity {n nmax : ℕ} (s s' : ASystem n) (h : n ≤ nmax)
    (hZ : s.Z = s'.Z) (hpos : s.pos = s'.pos) :
    cm_none_unflat s nmax = cm_none_unflat s' nmax
    ∧ cm_none_flat s nmax = cm_none_flat s' nmax
    ∧ cm_eigenspectrum s nmax = cm_eigenspectrum s' nmax
    ∧ ∀ (i j : ℕ) (hi : i < n) (hj : j < n), i ≠ j →
        cm_none_unflat s nmax ⟨i, lt_of_lt_of_le hi h⟩ ⟨j, lt_of_lt_of_le hj h⟩ =
          (s.Z ⟨i, hi⟩ : ℝ) * (s.Z ⟨j, hj⟩ : ℝ) /
            Real.sqrt (∑ k, (s.pos ⟨i, hi⟩ k - s.pos ⟨j, hj⟩ k) ^ 2) := by
  have he : cmEntry s = cmEntry s' := cmEntry_eq_of hZ hpos
  refine ⟨?_, ?_, ?_, ?_⟩
  · unfold cm_none_unflat
    rw [he]
  · unfold cm_none_flat cmFlatList
    rw [he]
  · unfold cm_eigenspectrum cmMatrix
    rw [he]
  · intro i j hi hj hij
    rw [(coulomb_matrix_none_entries s h).1 i j hi hj, if_neg hij]

/-- Witness for C10: the water-like structure against a copy with a 2 Å
cubic cell and periodic boundary conditions switched on. -/
theorem cm_ignores_periodicity_witness :
    cm_none_unflat waterSystem 5 =
      cm_none_unflat { waterSystem with
        cell := ![![2, 0, 0], ![0, 2, 0], ![0, 0, 2]], pbc := true } 5
    ∧ cm_none_flat waterSystem 5 =
      cm_none_flat { waterSystem with
        cell := ![![2, 0, 0], ![0, 2, 0], ![0, 0, 2]], pbc := true } 5
    ∧ cm_eigenspectrum waterSystem 5 =
      cm_eigenspectrum { waterSystem with
        cell := ![![2, 0, 0], ![0, 2, 0], ![0, 0, 2]], pbc := true } 5 := by
  have h := cm_ignores_periodicity waterSystem
    { waterSystem with cell := ![![2, 0, 0], ![0, 2, 0], ![0, 0, 2]], pbc := true }
    (by omega : 3 ≤ 5) rfl rfl
  exact ⟨h.1, h.2.1, h.2.2.1⟩

/-- C5: constructing the Coulomb-matrix descriptor with an unrecognized
permutation string or a negative `n_atoms_max` fails eagerly at
construction; constructing with a valid configuration succeeds; and the
atom-count check of `create` fails at computation time exactly when the
structure has more atoms than `n_atoms_max`. -/
theorem cm_constructor_and_create_errors :
    (∀ (p : String), p ∉ cmValidPermutations →
      ∀ m : ℤ, exceptOk (coulombMatrixInit m p) = false)
    ∧ (∀ p : String, exceptOk (coulombMatrixInit (-1) p) = false)
    ∧ exceptOk (coulombMatrixInit 2 "none") = true
    ∧ (∀ nmax n : ℕ, nmax < n → exceptOk (cmCreateSizeCheck nmax n) = false)
    ∧ (∀ nmax n : ℕ, n ≤ nmax → exceptOk (cmCreateSizeCheck nmax n) = true) := by
  refine ⟨?_, ?_, ?_, ?_, ?_⟩
  · intro p hp m
    simp [coulombMatrixInit, hp, exceptOk]
  · intro p
    by_cases hp : p ∈ cmValidPermutations
    · simp [coulombMatrixInit, hp, exceptOk]
    · simp [coulombMatrixInit, hp, exceptOk]
  · rfl
  · intro nmax n hlt
    simp [cmCreateSizeCheck, hlt, exceptOk]
  · intro nmax n hle
    simp [cmCreateSizeCheck, Nat.not_lt.mpr hle, exceptOk]

/-- Witness for C5: the concrete scenarios of `test_exceptions` —
`permutation="unknown"`, `n_atoms_max=-1`, and a 3-atom structure against
`n_atoms_max=2`. -/
theorem cm_constructor_and_create_errors_witness :
    exceptOk (coulombMatrixInit 5 "unknown") = false
    ∧ exceptOk (coulombMatrixInit (-1) "none") = false
    ∧ exceptOk (coulombMatrixInit 2 "none") = true
    ∧ exceptOk (cmCreateSizeCheck 2 3) = false := by
  have h := cm_constructor_and_create_errors
  exact ⟨h.1 "unknown" (by decide) 5, h.2.1 "none", h.2.2.1,
    h.2.2.2.1 2 3 (by omega)⟩

/-- C7: with `periodic=True`, `create` rejects a structure whose lattice
has zero volume with an invalid-structure error, while the same
structure passes the check when the descriptor is configured
non-periodically. -/
theorem periodic_degenerate_cell_check {n : ℕ} (s : ASystem n)
    (hdet : det3 s.cell = 0) :
    soapCreateCellCheck true s = .error "invalid structure: degenerate lattice"
    ∧ soapCreateCellCheck false s = .ok () := by
  constructor
  · simp [soapCreateCellCheck, hdet]
  · simp [soapCreateCellCheck]

/-- C6: evaluation of the `ValleOganov` key validation. An invalid key
raises `ValueError`, a non-empty dictionary missing a required key
raises `ValueError`, and a complete dictionary passes — but an *empty*
dictionary (which is missing all three required keys) raises
`UnboundLocalError` instead of the claimed `ValueError`, because the
local `valid_keys` is only assigned inside the loop over the
dictionary's keys. -/
theorem valleoganov_key_validation :
    valleOganovInit (some ["sigma", "bad"]) none =
      some (.valueError "The given setup contains an invalid key")
    ∧ valleOganovInit (some ["sigma"]) none =
      some (.valueError "Missing value")
    ∧ valleOganovInit (some ["sigma", "n", "r_cutoff"]) none = none
    ∧ valleOganovInit (some ["sigma", "n", "r_cutoff"]) (some ["n"]) =
      some (.valueError "Missing value")
    ∧ valleOganovInit (some []) none =
      some (.unboundLocalError "valid_keys")
    ∧ valleOganovInit none (some []) =
      some (.unboundLocalError "valid_keys")
    ∧ ∀ msg, valleOganovInit (some []) none ≠ some (.valueError msg) := by
  refine ⟨rfl, rfl, rfl, rfl, rfl, rfl, ?_⟩
  intro msg h
  rw [show valleOganovInit (some []) none =
    some (PyError.unboundLocalError "valid_keys") from rfl] at h
  exact PyError.noConfusion (Option.some.inj h)

/-- C9: the Coulomb-matrix output with `permutation="none"` is invariant
under global translations and global rotations of the positions, and
the invariant `eigenspectrum` variant is additionally invariant under
any permutation of the atom ordering that preserves the species
assignment (in fact under any atom permutation). -/
theorem descriptor_invariances {n : ℕ} (s : ASystem n) (nmax : ℕ) :
    (∀ t : Vec3, cm_none_flat (translate s t) nmax = cm_none_flat s nmax)
    ∧ (∀ R : Matrix (Fin 3) (Fin 3) ℝ, R ∈ Matrix.orthogonalGroup (Fin 3) ℝ →
        cm_none_flat (rotate s R) nmax = cm_none_flat s nmax)
    ∧ (∀ t : Vec3,
        cm_eigenspectrum (translate s t) nmax = cm_eigenspectrum s nmax)
    ∧ (∀ R : Matrix (Fin 3) (Fin 3) ℝ, R ∈ Matrix.orthogonalGroup (Fin 3) ℝ →
        cm_eigenspectrum (rotate s R) nmax = cm_eigenspectrum s nmax)
    ∧ (∀ σ : Equiv.Perm (Fin n), (∀ i, s.Z (σ i) = s.Z i) →
        cm_eigenspectrum (permuteAtoms s σ) nmax = cm_eigenspectrum s nmax) := by
  refine ⟨?_, ?_, ?_, ?_, ?_⟩
  · intro t
    unfold cm_none_flat cmFlatList
    rw [cmEntry_translate]
  · intro R hR
    unfold cm_none_flat cmFlatList
    rw [cmEntry_rotate s hR]
  · intro t
    unfold cm_eigenspectrum cmMatrix
    rw [cmEntry_translate]
  · intro R hR
    unfold cm_eigenspectrum cmMatrix
    rw [cmEntry_rotate s hR]
  · intro σ _
    unfold cm_eigenspectrum
    rw [eigvalsh_permute]

/-- Witness for C9 at the water-like structure: a concrete translation,
the (orthogonal) identity rotation, and the swap of the two hydrogen
atoms (a species-preserving permutation). -/
theorem descriptor_invariances_witness :
    cm_none_flat (translate waterSystem fun _ => 1) 5 =
      cm_none_flat waterSystem 5
    ∧ cm_none_flat (rotate waterSystem 1) 5 = cm_none_flat waterSystem 5
    ∧ cm_eigenspectrum (translate waterSystem fun _ => 1) 5 =
      cm_eigenspectrum waterSystem 5
    ∧ cm_eigenspectrum (rotate waterSystem 1) 5 =
      cm_eigenspectrum waterSystem 5
    ∧ cm_eigenspectrum (permuteAtoms waterSystem (Equiv.swap 0 2)) 5 =
      cm_eigenspectrum waterSystem 5 := by
  have h := descriptor_invariances waterSystem 5
  exact ⟨h.1 _, h.2.1 1 (one_mem _), h.2.2.1 _, h.2.2.2.1 1 (one_mem _),
    h.2.2.2.2 (Equiv.swap 0 2) (by decide)⟩

/-- C8: any descriptor computed from the periodic image point set of a
structure produces the same output on the m-fold supercell (any integer
factor m ≥ 1, any cell shape — the lattice basis b is arbitrary, so
orthogonal and triclinic cells alike) as on the original cell, because
the two structures generate identical image sets. -/
theorem supercell_consistency {α : Type} (F : Set SAtom → α)
    (b : Fin 3 → Vec3) (A : Set SAtom) (m : ℕ) (hm : 1 ≤ m) :
    F (imageSet (superCellBasis b m) (superCellAtoms b m A)) =
      F (imageSet b A) :=
  congrArg F (imageSet_superCell b A m hm)

/-- Witness for C8: the triclinic cell of `test_periodic_images` with a
doubling supercell, for a one-atom structure at the origin. -/
theorem supercell_consistency_witness :
    imageSet (superCellBasis ![![0, 2, 2], ![2, 0, 2], ![2, 2, 0]] 2)
        (superCellAtoms ![![0, 2, 2], ![2, 0, 2], ![2, 2, 0]] 2
          {((1 : ℕ), (fun _ => 0 : Vec3))}) =
      imageSet ![![0, 2, 2], ![2, 0, 2], ![2, 2, 0]]
        {((1 : ℕ), (fun _ => 0 : Vec3))} :=
  supercell_consistency (fun S => S) ![![0, 2, 2], ![2, 0, 2], ![2, 2, 0]]
    {((1 : ℕ), (fun _ => 0 : Vec3))} 2 (by omega)

/-- Witness for C7: the water-like structure with an all-zero cell, as in
`test_unit_cells`. -/
theorem periodic_degenerate_cell_check_witness :
    soapCreateCellCheck true { waterSystem with cell := fun _ _ => 0 } =
      .error "invalid structure: degenerate lattice"
    ∧ soapCreateCellCheck false { waterSystem with cell := fun _ _ => 0 } =
      .ok () :=
  periodic_degenerate_cell_check _ (by norm_num [det3])

end

end Dscribe
